import Mathlib

/-!
Verification of the country-name to ISO3 fuzzy mapper (src/mapper_eng.py).

The script normalizes country names, builds a candidate pool from a
reference table, and matches free-text area names to ISO3 codes with a
manual override for "czechia", a fuzzy-similarity threshold of 90, and a
first-row lookup.  Everything below is a shallow embedding of that script:
strings are lists of characters, the pandas table is a list of rows, and
the external fuzzy-similarity primitive (fuzzywuzzy) is abstracted as a
scorer parameter, with extractOne modelled as the documented
first-candidate-with-maximal-score selection.
-/

namespace MapperEng

/-- Python cell values that can reach normalize: a string, or the float NaN
    that pandas uses for a missing spreadsheet cell.  Python's str(...) turns
    the latter into the literal text "nan". -/
inductive PyVal where
  | str (s : String)
  | nan
deriving DecidableEq

/-- Python str(text): identity on strings, "nan" for the missing-cell float. -/
def pyStr : PyVal → String
  | .str s => s
  | .nan => "nan"

/-- ASCII whitespace stripped by Python str.strip(). -/
def isPySpace (c : Char) : Bool :=
  c.toNat = 32 || c.toNat = 9 || c.toNat = 10 || c.toNat = 13 || c.toNat = 11 || c.toNat = 12

/-- Drop leading whitespace (the left half of str.strip()). -/
def ltrim (l : List Char) : List Char := l.dropWhile isPySpace

/-- Drop trailing whitespace (the right half of str.strip()). -/
def rtrim (l : List Char) : List Char := (l.reverse.dropWhile isPySpace).reverse

/-- Python str.strip(): drop whitespace at both ends. -/
def pyStrip (l : List Char) : List Char := rtrim (ltrim l)

/-- One pass of re.sub applied to the pattern that deletes a parenthesized
    substring non-greedily: from an opening paren up to the first closing
    paren, provided no newline lies between (the dot of the pattern does not
    match a newline).  The state argument is none while scanning outside a
    potential group and some buf (buffered characters, reversed) after an
    opening paren whose match is still undecided. -/
def rpGo : Option (List Char) → List Char → List Char
  | none, [] => []
  | some buf, [] => buf.reverse
  | none, c :: cs =>
    if c = '(' then rpGo (some [c]) cs else c :: rpGo none cs
  | some buf, c :: cs =>
    if c = ')' then rpGo none cs
    else if c = '\n' then buf.reverse ++ c :: rpGo none cs
    else rpGo (some (c :: buf)) cs

/-- Characters kept by the substitution that deletes [^a-z0-9 ]:
    lowercase ASCII letters, ASCII digits, and the space. -/
def allowedChar (c : Char) : Bool :=
  (97 ≤ c.toNat && c.toNat ≤ 122) || (48 ≤ c.toNat && c.toNat ≤ 57) || c.toNat = 32

/-- Word characters for the regex word boundary: [a-zA-Z0-9_] in ASCII. -/
def isWordChar (c : Char) : Bool :=
  (97 ≤ c.toNat && c.toNat ≤ 122) || (65 ≤ c.toNat && c.toNat ≤ 90) ||
    (48 ≤ c.toNat && c.toNat ≤ 57) || c.toNat = 95

/-- Whether the first character of the list is a word character; an empty
    list counts as a boundary. -/
def headW : List Char → Bool
  | [] => false
  | c :: _ => isWordChar c

/-- One pass of the substitution that deletes each standalone word "the":
    occurrences of the three characters with a word boundary on both sides,
    scanned left to right and non-overlapping.  The flag b records whether
    the character just before the current position (in the original string)
    is a word character; after a deletion it is true because the deleted
    match ended in a word character.  When the boundary test fails the
    scanner moves on one position; since a match can only start at a 't',
    the characters 'h' and 'e' are then emitted unchanged and the scan
    resumes at rest with a word character before it. -/
def rtGo (b : Bool) : List Char → List Char
  | 't' :: 'h' :: 'e' :: rest =>
    if !b && !headW rest then rtGo true rest
    else 't' :: 'h' :: 'e' :: rtGo true rest
  | c :: cs => c :: rtGo (isWordChar c) cs
  | [] => []

/-- Whether the scan of rtGo would delete anything: true exactly when a
    standalone "the" occurs, given that the character before the current
    position is a word character iff b. -/
def hasThe (b : Bool) : List Char → Bool
  | 't' :: 'h' :: 'e' :: rest =>
    if !b && !headW rest then true
    else hasThe true rest
  | c :: cs => hasThe (isWordChar c) cs
  | [] => false

/-- The normalize function of mapper_eng.py: str(text).lower().strip(),
    delete parenthesized substrings, delete characters outside [a-z0-9 ],
    delete standalone "the", strip again. -/
def normalize (text : PyVal) : String :=
  let s1 := pyStrip (((pyStr text).data).map Char.toLower)
  let s2 := rpGo none s1
  let s3 := s2.filter allowedChar
  let s4 := rtGo false s3
  String.mk (pyStrip s4)

/-- One row of the country reference table (country.xlsx). -/
structure CountryRow where
  longName_EN : PyVal
  shortName_EN : PyVal
  ISO3Code : String
deriving DecidableEq

/-- The norm_long column added to the reference table. -/
def norm_long (r : CountryRow) : String := normalize r.longName_EN

/-- The norm_short column added to the reference table. -/
def norm_short (r : CountryRow) : String := normalize r.shortName_EN

/-- pandas unique(): keep the first occurrence of each value, in order. -/
def dedupGo (seen : List String) : List String → List String
  | [] => []
  | c :: cs => if c ∈ seen then dedupGo seen cs else c :: dedupGo (c :: seen) cs

/-- The candidate pool all_names: normalized long names followed by
    normalized short names, duplicates collapsed to the first occurrence.
    The dropna of the script removes nothing because normalize always
    returns a string. -/
def all_names (country : List CountryRow) : List String :=
  dedupGo [] (country.map norm_long ++ country.map norm_short)

/-- Fold of fuzzywuzzy extractOne over the remaining candidates: a later
    candidate replaces the current best only with a strictly greater score,
    so the first candidate reaching the maximal score wins. -/
def extractGo (scorer : String → String → Nat) (q : String) :
    String × Nat → List String → String × Nat
  | best, [] => best
  | best, c :: cs =>
    if best.2 < scorer q c then extractGo scorer q (c, scorer q c) cs
    else extractGo scorer q best cs

/-- fuzzywuzzy process.extractOne: the candidate with the maximal score,
    first occurrence winning; none when the candidate list is empty (the
    Python call then yields None and the tuple unpacking in match_iso3
    raises). -/
def extractOne (scorer : String → String → Nat) (q : String) :
    List String → Option (String × Nat)
  | [] => none
  | c :: cs => some (extractGo scorer q (c, scorer q c) cs)

/-- The boolean row mask of the lookup in match_iso3: the row's normalized
    long or short name equals the best-matching candidate. -/
def rowMatches (m : String) (r : CountryRow) : Bool :=
  (norm_long r == m) || (norm_short r == m)

/-- The match_iso3 function of mapper_eng.py.  The similarity primitive is
    passed as the scorer parameter; error () models the exception raised by
    unpacking extractOne's None when the candidate pool is empty; ok none is
    the Python return None ("no match"). -/
def match_iso3 (country : List CountryRow) (scorer : String → String → Nat)
    (area : PyVal) : Except Unit (Option String) :=
  let norm_area := normalize area
  if norm_area = "czechia" then Except.ok (some "CZE")
  else
    match extractOne scorer norm_area (all_names country) with
    | none => Except.error ()
    | some (m, score) =>
      if 90 ≤ score then
        match country.find? (rowMatches m) with
        | some r => Except.ok (some r.ISO3Code)
        | none => Except.ok none
      else Except.ok none

/-- One row of the target dataset (id=24.xlsx): its Area cell and the
    remaining cells, which the script never touches. -/
structure DataRow where
  Area : PyVal
  rest : List PyVal
deriving DecidableEq

/-- The line id24 applies match_iso3 to every Area value, row by row, and
    stores the results in the new ISO3Code column; an exception in any row
    aborts the whole run before the output file is written. -/
def apply_match_iso3 (country : List CountryRow) (scorer : String → String → Nat) :
    List DataRow → Except Unit (List (DataRow × Option String))
  | [] => Except.ok []
  | r :: rs =>
    match match_iso3 country scorer r.Area, apply_match_iso3 country scorer rs with
    | Except.ok o, Except.ok out => Except.ok ((r, o) :: out)
    | _, _ => Except.error ()

/-! Helper lemmas about the character classes. -/

lemma isPySpace_not_word {c : Char} (h : isPySpace c = true) : isWordChar c = false := by
  simp only [isPySpace, Bool.or_eq_true, decide_eq_true_eq] at h
  simp only [isWordChar, Bool.or_eq_false_iff, Bool.and_eq_false_iff,
    decide_eq_false_iff_not, Nat.not_le]
  omega

lemma allowed_not_upper {c : Char} (h : allowedChar c = true) :
    ¬(Char.toNat c ≥ 65 ∧ Char.toNat c ≤ 90) := by
  simp only [allowedChar, Bool.or_eq_true, Bool.and_eq_true, decide_eq_true_eq] at h
  omega

lemma toLower_allowed {c : Char} (h : allowedChar c = true) : Char.toLower c = c := by
  simp only [Char.toLower, if_neg (allowed_not_upper h)]

lemma map_toLower_id {l : List Char} (h : ∀ c ∈ l, allowedChar c = true) :
    l.map Char.toLower = l := by
  induction l with
  | nil => rfl
  | cons c cs ih =>
    simp only [List.map_cons, toLower_allowed (h c (by simp)),
      ih (fun x hx => h x (by simp [hx])), List.cons.injEq, and_self]

/-! Helper lemmas about stripping whitespace. -/

lemma dropWhile_idem {α : Type} (p : α → Bool) (l : List α) :
    (l.dropWhile p).dropWhile p = l.dropWhile p := by
  induction l with
  | nil => rfl
  | cons c cs ih =>
    by_cases h : p c = true
    · simp [List.dropWhile_cons_of_pos h, ih]
    · simp [List.dropWhile_cons_of_neg h]

lemma rtrim_idem (l : List Char) : rtrim (rtrim l) = rtrim l := by
  unfold rtrim
  rw [List.reverse_reverse, dropWhile_idem]

lemma mem_takeWhile {α : Type} {p : α → Bool} {c : α} :
    ∀ {l : List α}, c ∈ l.takeWhile p → p c = true := by
  intro l
  induction l with
  | nil => simp
  | cons x xs ih =>
    by_cases h : p x = true
    · rw [List.takeWhile_cons_of_pos h]
      intro hc
      rcases List.mem_cons.mp hc with h1 | h2
      · rwa [h1]
      · exact ih h2
    · rw [List.takeWhile_cons_of_neg h]
      simp

lemma rtrim_decomp (l : List Char) :
    ∃ t, (∀ c ∈ t, isPySpace c = true) ∧ l = rtrim l ++ t := by
  refine ⟨(l.reverse.takeWhile isPySpace).reverse, ?_, ?_⟩
  · intro c hc
    exact mem_takeWhile (List.mem_reverse.mp hc)
  · calc l = l.reverse.reverse := (List.reverse_reverse l).symm
    _ = (l.reverse.takeWhile isPySpace ++ l.reverse.dropWhile isPySpace).reverse := by
          rw [List.takeWhile_append_dropWhile]
    _ = (l.reverse.dropWhile isPySpace).reverse ++ (l.reverse.takeWhile isPySpace).reverse := by
          rw [List.reverse_append]
    _ = rtrim l ++ (l.reverse.takeWhile isPySpace).reverse := rfl

lemma ltrim_rtrim {l : List Char} (h : ltrim l = l) : ltrim (rtrim l) = rtrim l := by
  obtain ⟨t, _, hdec⟩ := rtrim_decomp l
  cases hr : rtrim l with
  | nil => simp [ltrim]
  | cons d ds =>
    by_cases hd : isPySpace d = true
    · exfalso
      have hl : l = d :: (ds ++ t) := by rw [hdec, hr]; simp
      have h2 : ltrim l = ltrim (ds ++ t) := by
        rw [hl]
        simp [ltrim, List.dropWhile_cons_of_pos hd]
      have h3 : (ltrim (ds ++ t)).length ≤ (ds ++ t).length :=
        (List.dropWhile_sublist _).length_le
      rw [h2, hl] at h
      have h4 := congrArg List.length h
      simp only [List.length_cons] at h4
      omega
    · simp [ltrim, List.dropWhile_cons_of_neg hd]

lemma ltrim_idem (l : List Char) : ltrim (ltrim l) = ltrim l :=
  dropWhile_idem isPySpace l

lemma pyStrip_idem (l : List Char) : pyStrip (pyStrip l) = pyStrip l := by
  unfold pyStrip
  rw [ltrim_rtrim (ltrim_idem l), rtrim_idem]

lemma pyStrip_sublist (l : List Char) : List.Sublist (pyStrip l) l := by
  have h1 : List.Sublist (ltrim l) l := List.dropWhile_sublist _
  have h2 : List.Sublist (rtrim (ltrim l)) (ltrim l) := by
    have h3 : List.Sublist ((ltrim l).reverse.dropWhile isPySpace) (ltrim l).reverse :=
      List.dropWhile_sublist _
    have h4 := h3.reverse
    rwa [List.reverse_reverse] at h4
  exact h2.trans h1

/-! The paren-deleting pass does nothing to a string without an opening paren. -/

lemma rpGo_none_id {l : List Char} (h : ∀ c ∈ l, c ≠ '(') : rpGo none l = l := by
  induction l with
  | nil => rfl
  | cons c cs ih =>
    have hc : c ≠ '(' := h c (by simp)
    simp [rpGo, hc, ih (fun x hx => h x (by simp [hx]))]

/-! Step equations and scan lemmas for the standalone-"the" deletion. -/

lemma rtGo_the (b : Bool) (rest : List Char) :
    rtGo b ('t' :: 'h' :: 'e' :: rest) =
      if (!b && !headW rest) = true then rtGo true rest
      else 't' :: 'h' :: 'e' :: rtGo true rest := rfl

lemma hasThe_the (b : Bool) (rest : List Char) :
    hasThe b ('t' :: 'h' :: 'e' :: rest) =
      if (!b && !headW rest) = true then true else hasThe true rest := rfl

lemma rtGo_cons (b : Bool) (c : Char) (cs : List Char)
    (h : ∀ rest, c :: cs ≠ 't' :: 'h' :: 'e' :: rest) :
    rtGo b (c :: cs) = c :: rtGo (isWordChar c) cs := by
  rw [rtGo.eq_def]
  split
  · rename_i rest heq
    exact absurd heq (h rest)
  · rename_i hcond heq
    injection heq with h1 h2
    subst h1
    subst h2
    rfl
  · rename_i heq
    exact absurd heq (by simp)

lemma hasThe_cons (b : Bool) (c : Char) (cs : List Char)
    (h : ∀ rest, c :: cs ≠ 't' :: 'h' :: 'e' :: rest) :
    hasThe b (c :: cs) = hasThe (isWordChar c) cs := by
  rw [hasThe.eq_def]
  split
  · rename_i rest heq
    exact absurd heq (h rest)
  · rename_i hcond heq
    injection heq with h1 h2
    subst h1
    subst h2
    rfl
  · rename_i heq
    exact absurd heq (by simp)

lemma shape_em (l : List Char) :
    (∃ rest, l = 't' :: 'h' :: 'e' :: rest) ∨ (∀ rest, l ≠ 't' :: 'h' :: 'e' :: rest) := by
  by_cases h : ∃ rest, l = 't' :: 'h' :: 'e' :: rest
  · exact Or.inl h
  · exact Or.inr (fun rest heq => h ⟨rest, heq⟩)

lemma not_shape_of_head {c : Char} (cs : List Char) (h : c ≠ 't') :
    ∀ rest, c :: cs ≠ 't' :: 'h' :: 'e' :: rest := by
  intro rest heq
  injection heq with h1 _
  exact h h1

lemma rtGo_sublist_aux : ∀ n, ∀ (l : List Char) (b : Bool), l.length ≤ n →
    List.Sublist (rtGo b l) l := by
  intro n
  induction n with
  | zero =>
    intro l b hl
    have h0 : l = [] := List.eq_nil_of_length_eq_zero (Nat.le_zero.mp hl)
    subst h0
    simp [rtGo]
  | succ n ih =>
    intro l b hl
    rcases shape_em l with ⟨rest, rfl⟩ | hns
    · simp only [List.length_cons] at hl
      rw [rtGo_the]
      by_cases hc : (!b && !headW rest) = true
      · rw [if_pos hc]
        have h1 : List.Sublist rest ('e' :: rest) := List.sublist_cons_self 'e' rest
        have h2 : List.Sublist ('e' :: rest) ('h' :: 'e' :: rest) :=
          List.sublist_cons_self 'h' _
        have h3 : List.Sublist ('h' :: 'e' :: rest) ('t' :: 'h' :: 'e' :: rest) :=
          List.sublist_cons_self 't' _
        exact (ih rest true (by omega)).trans ((h1.trans h2).trans h3)
      · rw [if_neg hc]
        exact (((ih rest true (by omega)).cons₂ _).cons₂ _).cons₂ _
    · cases l with
      | nil => simp [rtGo]
      | cons c cs =>
        simp only [List.length_cons] at hl
        rw [rtGo_cons _ _ _ hns]
        exact (ih cs _ (by omega)).cons₂ _

lemma rtGo_sublist (b : Bool) (l : List Char) : List.Sublist (rtGo b l) l :=
  rtGo_sublist_aux l.length l b le_rfl

lemma rtGo_true_head (l : List Char) : (rtGo true l).head? = l.head? := by
  rcases shape_em l with ⟨rest, rfl⟩ | hns
  · rw [rtGo_the]
    simp
  · cases l with
    | nil => simp [rtGo]
    | cons c cs =>
      rw [rtGo_cons _ _ _ hns]
      simp

lemma headW_congr {l1 l2 : List Char} (h : l1.head? = l2.head?) : headW l1 = headW l2 := by
  cases l1 with
  | nil =>
    cases l2 with
    | nil => rfl
    | cons d ds => simp at h
  | cons c cs =>
    cases l2 with
    | nil => simp at h
    | cons d ds =>
      simp only [List.head?_cons, Option.some.injEq] at h
      simp [headW, h]

lemma rtGo_true_shape {cs X : List Char} (h : rtGo true cs = 'h' :: 'e' :: X) :
    ∃ Y, cs = 'h' :: 'e' :: Y := by
  have h1 : cs.head? = some 'h' := by rw [← rtGo_true_head cs, h]; rfl
  cases cs with
  | nil => simp at h1
  | cons d ds =>
    simp only [List.head?_cons, Option.some.injEq] at h1
    subst h1
    rw [rtGo_cons _ _ _ (not_shape_of_head ds (by decide))] at h
    injection h with _ h2
    have hwh : isWordChar 'h' = true := by decide
    rw [hwh] at h2
    have h3 : ds.head? = some 'e' := by rw [← rtGo_true_head ds, h2]; rfl
    cases ds with
    | nil => simp at h3
    | cons e es =>
      simp only [List.head?_cons, Option.some.injEq] at h3
      subst h3
      exact ⟨es, rfl⟩

lemma hasThe_rtGo_aux : ∀ n, ∀ (l : List Char) (b : Bool), l.length ≤ n →
    hasThe b (rtGo b l) = false := by
  intro n
  induction n with
  | zero =>
    intro l b hl
    have h0 : l = [] := List.eq_nil_of_length_eq_zero (Nat.le_zero.mp hl)
    subst h0
    simp [rtGo, hasThe]
  | succ n ih =>
    intro l b hl
    rcases shape_em l with ⟨rest, rfl⟩ | hns
    · simp only [List.length_cons] at hl
      rw [rtGo_the]
      by_cases hc : (!b && !headW rest) = true
      · rw [if_pos hc]
        simp only [Bool.and_eq_true, Bool.not_eq_true'] at hc
        obtain ⟨hb, hwrest⟩ := hc
        subst hb
        cases rest with
        | nil => simp [rtGo, hasThe]
        | cons d ds =>
          simp only [List.length_cons] at hl
          have hwd : isWordChar d = false := hwrest
          have hdt : d ≠ 't' := by
            intro hdt
            subst hdt
            exact absurd hwd (by decide)
          rw [rtGo_cons _ _ _ (not_shape_of_head ds hdt), hwd]
          rw [hasThe_cons _ _ _ (not_shape_of_head _ hdt), hwd]
          exact ih ds false (by omega)
      · rw [if_neg hc]
        rw [hasThe_the]
        have hw : headW (rtGo true rest) = headW rest := headW_congr (rtGo_true_head rest)
        rw [if_neg (by rw [hw]; exact hc)]
        exact ih rest true (by omega)
    · cases l with
      | nil => simp [rtGo, hasThe]
      | cons c cs =>
        simp only [List.length_cons] at hl
        rw [rtGo_cons _ _ _ hns]
        by_cases hct : c = 't'
        · subst hct
          have hwt : isWordChar 't' = true := by decide
          rw [hwt]
          have hshape : ∀ rest, 't' :: rtGo true cs ≠ 't' :: 'h' :: 'e' :: rest := by
            intro rest heq
            injection heq with _ h2
            obtain ⟨Y, hY⟩ := rtGo_true_shape h2
            exact hns Y (by rw [hY])
          rw [hasThe_cons _ _ _ hshape, hwt]
          exact ih cs true (by omega)
        · rw [hasThe_cons _ _ _ (not_shape_of_head _ hct)]
          exact ih cs _ (by omega)

lemma hasThe_rtGo (b : Bool) (l : List Char) : hasThe b (rtGo b l) = false :=
  hasThe_rtGo_aux l.length l b le_rfl

lemma rtGo_id_aux : ∀ n, ∀ (l : List Char) (b : Bool), l.length ≤ n →
    hasThe b l = false → rtGo b l = l := by
  intro n
  induction n with
  | zero =>
    intro l b hl _
    have h0 : l = [] := List.eq_nil_of_length_eq_zero (Nat.le_zero.mp hl)
    subst h0
    rfl
  | succ n ih =>
    intro l b hl hth
    rcases shape_em l with ⟨rest, rfl⟩ | hns
    · simp only [List.length_cons] at hl
      rw [hasThe_the] at hth
      by_cases hc : (!b && !headW rest) = true
      · rw [if_pos hc] at hth
        exact absurd hth (by simp)
      · rw [if_neg hc] at hth
        rw [rtGo_the, if_neg hc, ih rest true (by omega) hth]
    · cases l with
      | nil => rfl
      | cons c cs =>
        simp only [List.length_cons] at hl
        rw [hasThe_cons _ _ _ hns] at hth
        rw [rtGo_cons _ _ _ hns, ih cs _ (by omega) hth]

lemma rtGo_id {l : List Char} {b : Bool} (h : hasThe b l = false) : rtGo b l = l :=
  rtGo_id_aux l.length l b le_rfl h

/-! The "the"-scan is unchanged by stripping whitespace. -/

lemma hasThe_ltrim (l : List Char) : hasThe false (ltrim l) = hasThe false l := by
  induction l with
  | nil => rfl
  | cons c cs ih =>
    by_cases hc : isPySpace c = true
    · have hw : isWordChar c = false := isPySpace_not_word hc
      have hct : c ≠ 't' := by
        intro h
        subst h
        exact absurd hc (by decide)
      have h1 : ltrim (c :: cs) = ltrim cs := by
        simp [ltrim, List.dropWhile_cons_of_pos hc]
      rw [h1, hasThe_cons _ _ _ (not_shape_of_head _ hct), hw, ih]
    · have h1 : ltrim (c :: cs) = c :: cs := by
        simp [ltrim, List.dropWhile_cons_of_neg hc]
      rw [h1]

lemma hasThe_append_nonword_aux : ∀ n, ∀ (l : List Char) (b : Bool) (c : Char),
    l.length ≤ n → isWordChar c = false → hasThe b (l ++ [c]) = hasThe b l := by
  intro n
  induction n with
  | zero =>
    intro l b c hl hw
    have h0 : l = [] := List.eq_nil_of_length_eq_zero (Nat.le_zero.mp hl)
    subst h0
    have hct : c ≠ 't' := by
      intro h
      subst h
      exact absurd hw (by decide)
    rw [List.nil_append, hasThe_cons _ _ _ (not_shape_of_head _ hct), hw]
    rfl
  | succ n ih =>
    intro l b c hl hw
    rcases shape_em l with ⟨rest, rfl⟩ | hns
    · simp only [List.length_cons] at hl
      have happ : ('t' :: 'h' :: 'e' :: rest) ++ [c] = 't' :: 'h' :: 'e' :: (rest ++ [c]) := rfl
      rw [happ, hasThe_the, hasThe_the]
      have hwEq : headW (rest ++ [c]) = headW rest := by
        cases rest with
        | nil => simp [headW, hw]
        | cons d ds => rfl
      rw [hwEq]
      by_cases hcond : (!b && !headW rest) = true
      · rw [if_pos hcond, if_pos hcond]
      · rw [if_neg hcond, if_neg hcond]
        exact ih rest true c (by omega) hw
    · cases l with
      | nil =>
        have hct : c ≠ 't' := by
          intro h
          subst h
          exact absurd hw (by decide)
        rw [List.nil_append, hasThe_cons _ _ _ (not_shape_of_head _ hct), hw]
        rfl
      | cons d ds =>
        simp only [List.length_cons] at hl
        have happ : (d :: ds) ++ [c] = d :: (ds ++ [c]) := rfl
        have hns2 : ∀ rest, d :: (ds ++ [c]) ≠ 't' :: 'h' :: 'e' :: rest := by
          intro rest heq
          injection heq with h1 h2
          subst h1
          cases ds with
          | nil =>
            rw [List.nil_append] at h2
            injection h2 with _ h3
            exact absurd h3.symm (List.cons_ne_nil _ _)
          | cons d1 ds1 =>
            rw [List.cons_append] at h2
            injection h2 with h3 h4
            subst h3
            cases ds1 with
            | nil =>
              rw [List.nil_append] at h4
              injection h4 with h5 _
              subst h5
              exact absurd hw (by decide)
            | cons d2 ds2 =>
              rw [List.cons_append] at h4
              injection h4 with h5 _
              subst h5
              exact hns ds2 rfl
        rw [happ, hasThe_cons _ _ _ hns2, hasThe_cons _ _ _ hns]
        exact ih ds _ c (by omega) hw

lemma hasThe_append_nonword (l : List Char) (b : Bool) (c : Char)
    (hw : isWordChar c = false) : hasThe b (l ++ [c]) = hasThe b l :=
  hasThe_append_nonword_aux l.length l b c le_rfl hw

lemma hasThe_append_nonwords (t : List Char) : ∀ (l : List Char) (b : Bool),
    (∀ c ∈ t, isWordChar c = false) → hasThe b (l ++ t) = hasThe b l := by
  induction t with
  | nil => simp
  | cons c t' ih =>
    intro l b ht
    have h1 : l ++ c :: t' = (l ++ [c]) ++ t' := by simp
    rw [h1, ih _ _ (fun x hx => ht x (by simp [hx])),
      hasThe_append_nonword _ _ _ (ht c (by simp))]

lemma hasThe_rtrim (l : List Char) (b : Bool) : hasThe b (rtrim l) = hasThe b l := by
  obtain ⟨t, ht, hdec⟩ := rtrim_decomp l
  conv_rhs => rw [hdec]
  rw [hasThe_append_nonwords t _ _ (fun c hc => isPySpace_not_word (ht c hc))]

lemma hasThe_pyStrip (l : List Char) : hasThe false (pyStrip l) = hasThe false l := by
  unfold pyStrip
  rw [hasThe_rtrim, hasThe_ltrim]

/-! Idempotence of normalize. -/

lemma normalize_data (v : PyVal) :
    (normalize v).data =
      pyStrip (rtGo false (List.filter allowedChar
        (rpGo none (pyStrip ((pyStr v).data.map Char.toLower))))) := rfl

lemma normalize_chars (v : PyVal) : ∀ c ∈ (normalize v).data, allowedChar c = true := by
  intro c hc
  rw [normalize_data] at hc
  have h1 := (pyStrip_sublist _).subset hc
  have h2 := (rtGo_sublist false _).subset h1
  exact (List.mem_filter.mp h2).2

lemma allowed_ne_paren {c : Char} (h : allowedChar c = true) : c ≠ '(' := by
  intro heq
  subst heq
  exact absurd h (by decide)

lemma normalize_normalize (v : PyVal) :
    normalize (PyVal.str (normalize v)) = normalize v := by
  have hchars : ∀ c ∈ (normalize v).data, allowedChar c = true := normalize_chars v
  have hnothe : hasThe false (normalize v).data = false := by
    rw [normalize_data, hasThe_pyStrip]
    exact hasThe_rtGo false _
  have hstrip : pyStrip (normalize v).data = (normalize v).data := by
    rw [normalize_data]
    exact pyStrip_idem _
  show String.mk (pyStrip (rtGo false (List.filter allowedChar
      (rpGo none (pyStrip ((normalize v).data.map Char.toLower)))))) = normalize v
  rw [map_toLower_id hchars, hstrip,
    rpGo_none_id (fun c hc => allowed_ne_paren (hchars c hc)),
    List.filter_eq_self.mpr hchars, rtGo_id hnothe, hstrip]

/-! Lemmas about the best-match selection, the candidate pool, and the lookup. -/

lemma extractGo_spec (scorer : String → String → Nat) (q : String) :
    ∀ (l : List String) (best : String × Nat), best.2 = scorer q best.1 →
      (extractGo scorer q best l).2 = scorer q (extractGo scorer q best l).1 ∧
      (extractGo scorer q best l = best ∨ (extractGo scorer q best l).1 ∈ l) ∧
      best.2 ≤ (extractGo scorer q best l).2 ∧
      ∀ c ∈ l, scorer q c ≤ (extractGo scorer q best l).2 := by
  intro l
  induction l with
  | nil =>
    intro best hb
    exact ⟨hb, Or.inl rfl, le_rfl, by simp⟩
  | cons c cs ih =>
    intro best hb
    by_cases h : best.2 < scorer q c
    · have he : extractGo scorer q best (c :: cs) = extractGo scorer q (c, scorer q c) cs := by
        simp [extractGo, h]
      obtain ⟨ih1, ih2, ih3, ih4⟩ := ih (c, scorer q c) rfl
      rw [he]
      refine ⟨ih1, ?_, le_of_lt (lt_of_lt_of_le h ih3), ?_⟩
      · rcases ih2 with h2 | h2
        · exact Or.inr (by rw [h2]; exact List.mem_cons_self _ _)
        · exact Or.inr (List.mem_cons_of_mem _ h2)
      · intro d hd
        rcases List.mem_cons.mp hd with h3 | h3
        · subst h3
          exact ih3
        · exact ih4 d h3
    · have he : extractGo scorer q best (c :: cs) = extractGo scorer q best cs := by
        simp [extractGo, h]
      obtain ⟨ih1, ih2, ih3, ih4⟩ := ih best hb
      rw [he]
      refine ⟨ih1, ?_, ih3, ?_⟩
      · rcases ih2 with h2 | h2
        · exact Or.inl h2
        · exact Or.inr (List.mem_cons_of_mem _ h2)
      · intro d hd
        rcases List.mem_cons.mp hd with h3 | h3
        · subst h3
          exact le_trans (Nat.le_of_not_lt h) ih3
        · exact ih4 d h3

lemma extractOne_spec {scorer : String → String → Nat} {q m : String} {s : Nat}
    {l : List String} (h : extractOne scorer q l = some (m, s)) :
    s = scorer q m ∧ m ∈ l ∧ ∀ c ∈ l, scorer q c ≤ s := by
  cases l with
  | nil => simp [extractOne] at h
  | cons c cs =>
    simp only [extractOne, Option.some.injEq] at h
    obtain ⟨h1, h2, h3, h4⟩ := extractGo_spec scorer q cs (c, scorer q c) rfl
    rw [h] at h1 h2 h3 h4
    refine ⟨h1, ?_, ?_⟩
    · rcases h2 with h5 | h5
      · rw [show m = c from congrArg Prod.fst h5]
        exact List.mem_cons_self _ _
      · exact List.mem_cons_of_mem _ h5
    · intro d hd
      rcases List.mem_cons.mp hd with h5 | h5
      · subst h5
        exact h3
      · exact h4 d h5

lemma extractOne_ne_none {scorer : String → String → Nat} {q : String}
    {l : List String} (h : l ≠ []) : ∃ p, extractOne scorer q l = some p := by
  cases l with
  | nil => exact absurd rfl h
  | cons c cs => exact ⟨_, rfl⟩

lemma dedupGo_mem : ∀ (l seen : List String) (x : String),
    x ∈ dedupGo seen l ↔ (x ∈ l ∧ x ∉ seen) := by
  intro l
  induction l with
  | nil => simp [dedupGo]
  | cons c cs ih =>
    intro seen x
    by_cases hc : c ∈ seen
    · rw [show dedupGo seen (c :: cs) = dedupGo seen cs by simp [dedupGo, hc]]
      rw [ih seen x]
      constructor
      · rintro ⟨h1, h2⟩
        exact ⟨List.mem_cons_of_mem _ h1, h2⟩
      · rintro ⟨h1, h2⟩
        rcases List.mem_cons.mp h1 with rfl | h3
        · exact absurd hc h2
        · exact ⟨h3, h2⟩
    · rw [show dedupGo seen (c :: cs) = c :: dedupGo (c :: seen) cs by simp [dedupGo, hc]]
      constructor
      · intro h1
        rcases List.mem_cons.mp h1 with rfl | h3
        · exact ⟨List.mem_cons_self _ _, hc⟩
        · obtain ⟨h4, h5⟩ := (ih _ x).mp h3
          exact ⟨List.mem_cons_of_mem _ h4, fun h6 => h5 (List.mem_cons_of_mem _ h6)⟩
      · rintro ⟨h1, h2⟩
        rcases List.mem_cons.mp h1 with rfl | h3
        · exact List.mem_cons_self _ _
        · by_cases hxc : x = c
          · subst hxc
            exact List.mem_cons_self _ _
          · refine List.mem_cons_of_mem _ ((ih _ x).mpr ⟨h3, ?_⟩)
            simp only [List.mem_cons]
            rintro (h4 | h4)
            · exact hxc h4
            · exact h2 h4

lemma mem_all_names {country : List CountryRow} {m : String} :
    m ∈ all_names country ↔ ∃ r, r ∈ country ∧ (norm_long r = m ∨ norm_short r = m) := by
  unfold all_names
  rw [dedupGo_mem]
  simp only [List.not_mem_nil, not_false_iff, and_true, List.mem_append]
  constructor
  · rintro (h | h) <;> obtain ⟨r, hr, hrm⟩ := List.mem_map.mp h
    · exact ⟨r, hr, Or.inl hrm⟩
    · exact ⟨r, hr, Or.inr hrm⟩
  · rintro ⟨r, hr, (h | h)⟩
    · exact Or.inl (List.mem_map.mpr ⟨r, hr, h⟩)
    · exact Or.inr (List.mem_map.mpr ⟨r, hr, h⟩)

lemma all_names_ne_nil {country : List CountryRow} (h : country ≠ []) :
    all_names country ≠ [] := by
  cases country with
  | nil => exact absurd rfl h
  | cons r rs =>
    have h1 : all_names (r :: rs) =
        norm_long r :: dedupGo [norm_long r] (rs.map norm_long ++ (r :: rs).map norm_short) := by
      unfold all_names
      simp [dedupGo]
    rw [h1]
    exact List.cons_ne_nil _ _

lemma rowMatches_iff {m : String} {r : CountryRow} :
    rowMatches m r = true ↔ (norm_long r = m ∨ norm_short r = m) := by
  simp [rowMatches]

lemma find?_of_exists {α : Type} {p : α → Bool} {l : List α}
    (h : ∃ x, x ∈ l ∧ p x = true) :
    ∃ r, l.find? p = some r ∧ r ∈ l ∧ p r = true := by
  cases hf : l.find? p with
  | none =>
    obtain ⟨x, hx, hpx⟩ := h
    rw [List.find?_eq_none] at hf
    exact absurd hpx (by simp [hf x hx])
  | some r => exact ⟨r, rfl, List.mem_of_find?_eq_some hf, List.find?_some hf⟩

lemma find?_least {α : Type} (p : α → Bool) :
    ∀ (l : List α) (i : Nat) (hi : i < l.length),
      (∀ k (hk : k < i), p (l.get ⟨k, lt_trans hk hi⟩) = false) →
      p (l.get ⟨i, hi⟩) = true → l.find? p = some (l.get ⟨i, hi⟩) := by
  intro l
  induction l with
  | nil =>
    intro i hi
    simp at hi
  | cons c cs ih =>
    intro i hi hleast hp
    cases i with
    | zero =>
      exact List.find?_cons_of_pos _ hp
    | succ i' =>
      have h0 : p c = false := hleast 0 (Nat.succ_pos _)
      rw [List.find?_cons_of_neg _ (by simp [h0])]
      exact ih i' (Nat.lt_of_succ_lt_succ hi)
        (fun k hk => hleast (k + 1) (Nat.succ_lt_succ hk)) hp

/-! Unfolding lemmas for match_iso3. -/

lemma match_iso3_eq_czechia {country : List CountryRow} {scorer : String → String → Nat}
    {area : PyVal} (h : normalize area = "czechia") :
    match_iso3 country scorer area = Except.ok (some "CZE") := by
  simp [match_iso3, h]

lemma match_iso3_eq_fuzzy {country : List CountryRow} {scorer : String → String → Nat}
    {area : PyVal} {m : String} {s : Nat}
    (hcz : normalize area ≠ "czechia")
    (hext : extractOne scorer (normalize area) (all_names country) = some (m, s)) :
    match_iso3 country scorer area =
      if 90 ≤ s then
        match country.find? (rowMatches m) with
        | some r => Except.ok (some r.ISO3Code)
        | none => Except.ok none
      else Except.ok none := by
  simp only [match_iso3]
  rw [if_neg hcz, hext]

/-! The claims. -/

/-- C5: the normalizer is idempotent: for every string s,
    normalize (normalize s) equals normalize s. -/
theorem normalize_idem (s : String) :
    normalize (PyVal.str (normalize (PyVal.str s))) = normalize (PyVal.str s) :=
  normalize_normalize (PyVal.str s)

/-- C7: normalizing "Bolivia (Plurinational State of)" yields exactly
    "bolivia": the parenthesized substring is removed together with the
    parentheses, the remainder is lowercased, and trailing whitespace is
    stripped. -/
theorem normalize_bolivia :
    normalize (PyVal.str "Bolivia (Plurinational State of)") = "bolivia" := by decide

/-- C9: the normalizer is total over non-string cells through str():
    a missing Area cell (float NaN) normalizes to the literal string "nan",
    not to the empty string, and is then matched exactly like the string
    "nan". -/
theorem normalize_nan_matches :
    normalize PyVal.nan = "nan" ∧ normalize PyVal.nan ≠ "" ∧
    ∀ (country : List CountryRow) (scorer : String → String → Nat),
      match_iso3 country scorer PyVal.nan = match_iso3 country scorer (PyVal.str "nan") :=
  ⟨by decide, by decide, fun _ _ => rfl⟩

/-- C3: any input whose normalized form equals the literal string "czechia"
    makes the matcher return the fixed code "CZE", for every reference table
    and every similarity scorer, hence without consulting the fuzzy
    scoring. -/
theorem match_iso3_czechia (country : List CountryRow) (scorer : String → String → Nat)
    (area : PyVal) (h : normalize area = "czechia") :
    match_iso3 country scorer area = Except.ok (some "CZE") :=
  match_iso3_eq_czechia h

theorem match_iso3_czechia_witness :
    normalize (PyVal.str "Czechia") = "czechia" ∧
    match_iso3 [] (fun _ _ => 0) (PyVal.str "Czechia") = Except.ok (some "CZE") :=
  ⟨by decide, match_iso3_czechia [] (fun _ _ => 0) (PyVal.str "Czechia") (by decide)⟩

/-- C4: whenever the reference table is nonempty (as in the script's run),
    the matcher raises no exception on any input value: it always returns
    ok with either a code or none, "no match" being the null value none. -/
theorem match_iso3_total (country : List CountryRow) (scorer : String → String → Nat)
    (area : PyVal) (h : country ≠ []) :
    ∃ o : Option String, match_iso3 country scorer area = Except.ok o := by
  by_cases hcz : normalize area = "czechia"
  · exact ⟨some "CZE", match_iso3_eq_czechia hcz⟩
  · obtain ⟨⟨m, s⟩, hext⟩ := @extractOne_ne_none scorer (normalize area) _ (all_names_ne_nil h)
    rw [match_iso3_eq_fuzzy hcz hext]
    by_cases hs : 90 ≤ s
    · rw [if_pos hs]
      cases hf : country.find? (rowMatches m) with
      | some r => exact ⟨some r.ISO3Code, rfl⟩
      | none => exact ⟨none, rfl⟩
    · rw [if_neg hs]
      exact ⟨none, rfl⟩

theorem match_iso3_total_witness :
    ∃ o : Option String,
      match_iso3 [⟨PyVal.str "United States of America", PyVal.str "USA", "USA"⟩]
        (fun _ _ => 0) (PyVal.str "") = Except.ok o :=
  match_iso3_total [⟨PyVal.str "United States of America", PyVal.str "USA", "USA"⟩]
    (fun _ _ => 0) (PyVal.str "") (by decide)

/-- C2: when the input does not normalize to "czechia" and the best fuzzy
    score over the pool is exactly 90 the matcher returns an ISO3 code,
    while a best score of 89 or below returns no match (ok none). -/
theorem match_iso3_threshold (country : List CountryRow) (scorer : String → String → Nat)
    (area : PyVal) (m : String) (s : Nat)
    (hcz : normalize area ≠ "czechia")
    (hext : extractOne scorer (normalize area) (all_names country) = some (m, s)) :
    (s = 90 → ∃ code, match_iso3 country scorer area = Except.ok (some code)) ∧
    (s ≤ 89 → match_iso3 country scorer area = Except.ok none) := by
  have hstep := match_iso3_eq_fuzzy hcz hext
  constructor
  · intro hs
    rw [hstep, if_pos (by omega)]
    have hm : m ∈ all_names country := (extractOne_spec hext).2.1
    obtain ⟨r, hrc, hmr⟩ := mem_all_names.mp hm
    obtain ⟨r2, hf, _, _⟩ := find?_of_exists ⟨r, hrc, rowMatches_iff.mpr hmr⟩
    rw [hf]
    exact ⟨r2.ISO3Code, rfl⟩
  · intro hs
    rw [hstep, if_neg (by omega)]

theorem match_iso3_threshold_witness :
    (∃ code, match_iso3 [⟨PyVal.str "United States of America", PyVal.str "USA", "USA"⟩]
        (fun _ _ => 90) (PyVal.str "United States") = Except.ok (some code)) ∧
    match_iso3 [⟨PyVal.str "United States of America", PyVal.str "USA", "USA"⟩]
        (fun _ _ => 89) (PyVal.str "United States") = Except.ok none :=
  ⟨(match_iso3_threshold [⟨PyVal.str "United States of America", PyVal.str "USA", "USA"⟩]
      (fun _ _ => 90) (PyVal.str "United States") "united states of america" 90
      (by decide) (by decide)).1 rfl,
   (match_iso3_threshold [⟨PyVal.str "United States of America", PyVal.str "USA", "USA"⟩]
      (fun _ _ => 89) (PyVal.str "United States") "united states of america" 89
      (by decide) (by decide)).2 (by omega)⟩

/-- C10: when the best score is at least 90 and the czechia override did not
    fire, the best-matching candidate is by construction the normalized long
    or short name of some reference row, so the lookup is never empty and
    the matcher returns a row's ISO3Code on that path. -/
theorem match_iso3_lookup (country : List CountryRow) (scorer : String → String → Nat)
    (area : PyVal) (m : String) (s : Nat)
    (hcz : normalize area ≠ "czechia")
    (hext : extractOne scorer (normalize area) (all_names country) = some (m, s))
    (hs : 90 ≤ s) :
    (∃ r, r ∈ country ∧ (norm_long r = m ∨ norm_short r = m)) ∧
    (∃ r, r ∈ country ∧ match_iso3 country scorer area = Except.ok (some r.ISO3Code)) := by
  have hm : m ∈ all_names country := (extractOne_spec hext).2.1
  obtain ⟨r, hrc, hmr⟩ := mem_all_names.mp hm
  refine ⟨⟨r, hrc, hmr⟩, ?_⟩
  obtain ⟨r2, hf, hr2c, _⟩ := find?_of_exists ⟨r, hrc, rowMatches_iff.mpr hmr⟩
  refine ⟨r2, hr2c, ?_⟩
  rw [match_iso3_eq_fuzzy hcz hext, if_pos hs, hf]

theorem match_iso3_lookup_witness :
    (∃ r : CountryRow,
      r ∈ ([⟨PyVal.str "United States of America", PyVal.str "USA", "USA"⟩] :
        List CountryRow) ∧
      (norm_long r = "united states of america" ∨
        norm_short r = "united states of america")) ∧
    (∃ r : CountryRow,
      r ∈ ([⟨PyVal.str "United States of America", PyVal.str "USA", "USA"⟩] :
        List CountryRow) ∧
      match_iso3 [⟨PyVal.str "United States of America", PyVal.str "USA", "USA"⟩]
        (fun _ _ => 95) (PyVal.str "America") = Except.ok (some r.ISO3Code)) :=
  match_iso3_lookup [⟨PyVal.str "United States of America", PyVal.str "USA", "USA"⟩]
    (fun _ _ => 95) (PyVal.str "America") "united states of america" 95
    (by decide) (by decide) (by omega)

/-- C6: when the best-matching candidate is the normalized long or short
    name of more than one reference row, the matcher returns the ISO3Code
    of the first such row in table order. -/
theorem match_iso3_first_row (country : List CountryRow) (scorer : String → String → Nat)
    (area : PyVal) (m : String) (s : Nat) (i j : Nat)
    (hcz : normalize area ≠ "czechia")
    (hext : extractOne scorer (normalize area) (all_names country) = some (m, s))
    (hs : 90 ≤ s)
    (hi : i < country.length) (hj : j < country.length) (hij : i < j)
    (hmi : rowMatches m (country.get ⟨i, hi⟩) = true)
    (hmj : rowMatches m (country.get ⟨j, hj⟩) = true)
    (hleast : ∀ k (hk : k < i), rowMatches m (country.get ⟨k, lt_trans hk hi⟩) = false) :
    match_iso3 country scorer area = Except.ok (some (country.get ⟨i, hi⟩).ISO3Code) := by
  rw [match_iso3_eq_fuzzy hcz hext, if_pos hs,
    find?_least (rowMatches m) country i hi hleast hmi]

theorem match_iso3_first_row_witness :
    match_iso3 [⟨PyVal.str "Foo", PyVal.str "Xx", "AAA"⟩, ⟨PyVal.str "Foo", PyVal.str "Yy", "BBB"⟩]
      (fun _ _ => 100) (PyVal.str "Foo") =
      Except.ok (some (([⟨PyVal.str "Foo", PyVal.str "Xx", "AAA"⟩,
        ⟨PyVal.str "Foo", PyVal.str "Yy", "BBB"⟩] :
          List CountryRow).get ⟨0, by decide⟩).ISO3Code) :=
  match_iso3_first_row
    [⟨PyVal.str "Foo", PyVal.str "Xx", "AAA"⟩, ⟨PyVal.str "Foo", PyVal.str "Yy", "BBB"⟩]
    (fun _ _ => 100) (PyVal.str "Foo") "foo" 100 0 1
    (by decide) (by decide) (by omega) (by decide) (by decide) (by omega)
    (by decide) (by decide) (fun k hk => absurd hk (Nat.not_lt_zero k))

/-- C1: for a reference row whose normalized long (or short) name is passed
    to the matcher, the matcher returns that row's own ISO3Code, provided
    the scorer gives the exact candidate the top score 100 uniquely, the
    name does not normalize to "czechia", and no other row carries the same
    normalized alias with a different code. -/
theorem match_iso3_self (country : List CountryRow) (scorer : String → String → Nat)
    (r : CountryRow) (q : String)
    (hr : r ∈ country)
    (hq : q = norm_long r ∨ q = norm_short r)
    (hrefl : scorer q q = 100)
    (hdom : ∀ c ∈ all_names country, c ≠ q → scorer q c < 100)
    (hcz : q ≠ "czechia")
    (huniq : ∀ r2 ∈ country, (norm_long r2 = q ∨ norm_short r2 = q) →
      r2.ISO3Code = r.ISO3Code) :
    match_iso3 country scorer (PyVal.str q) = Except.ok (some r.ISO3Code) := by
  have hnq : normalize (PyVal.str q) = q := by
    rcases hq with h | h <;> rw [h]
    · exact normalize_normalize r.longName_EN
    · exact normalize_normalize r.shortName_EN
  have hqmem : q ∈ all_names country := by
    apply mem_all_names.mpr
    rcases hq with h | h
    · exact ⟨r, hr, Or.inl h.symm⟩
    · exact ⟨r, hr, Or.inr h.symm⟩
  obtain ⟨⟨m, s⟩, hext⟩ :=
    @extractOne_ne_none scorer q _ (List.ne_nil_of_mem hqmem)
  obtain ⟨hs_eq, hmem, hle⟩ := extractOne_spec hext
  have hqle : 100 ≤ s := by
    have h1 := hle q hqmem
    rwa [hrefl] at h1
  have hmq : m = q := by
    by_contra hne
    have h1 : scorer q m < 100 := hdom m hmem hne
    omega
  rw [hmq] at hext
  have hcz2 : normalize (PyVal.str q) ≠ "czechia" := by
    rw [hnq]
    exact hcz
  have hext2 : extractOne scorer (normalize (PyVal.str q)) (all_names country) =
      some (q, s) := by
    rw [hnq]
    exact hext
  rw [match_iso3_eq_fuzzy hcz2 hext2, if_pos (by omega)]
  have hqm : norm_long r = q ∨ norm_short r = q := by
    rcases hq with h | h
    · exact Or.inl h.symm
    · exact Or.inr h.symm
  obtain ⟨r2, hf, hr2c, hp2⟩ := find?_of_exists ⟨r, hr, rowMatches_iff.mpr hqm⟩
  rw [hf]
  show Except.ok (some r2.ISO3Code) = Except.ok (some r.ISO3Code)
  rw [huniq r2 hr2c (rowMatches_iff.mp hp2)]

theorem match_iso3_self_witness :
    match_iso3 [⟨PyVal.str "United States of America", PyVal.str "USA", "USA"⟩]
      (fun a b => if a = b then 100 else 50) (PyVal.str "united states of america") =
      Except.ok (some (CountryRow.mk (PyVal.str "United States of America")
        (PyVal.str "USA") "USA").ISO3Code) :=
  match_iso3_self [⟨PyVal.str "United States of America", PyVal.str "USA", "USA"⟩]
    (fun a b => if a = b then 100 else 50)
    (CountryRow.mk (PyVal.str "United States of America") (PyVal.str "USA") "USA")
    "united states of america"
    (by decide) (Or.inl (by decide)) (by decide) (by decide) (by decide) (by decide)

/-- C8: the annotation step returns the input rows unchanged and in order,
    with exactly the new ISO3Code value attached to each row, that value
    being the matcher's result on that row's own Area cell. -/
theorem apply_match_preserves (country : List CountryRow) (scorer : String → String → Nat)
    (rows : List DataRow) (out : List (DataRow × Option String))
    (h : apply_match_iso3 country scorer rows = Except.ok out) :
    out.map Prod.fst = rows ∧
    ∀ p ∈ out, match_iso3 country scorer p.1.Area = Except.ok p.2 := by
  induction rows generalizing out with
  | nil =>
    simp only [apply_match_iso3, Except.ok.injEq] at h
    subst h
    exact ⟨rfl, by simp⟩
  | cons r rs ih =>
    cases hm : match_iso3 country scorer r.Area with
    | error e => simp [apply_match_iso3, hm] at h
    | ok o =>
      cases ha : apply_match_iso3 country scorer rs with
      | error e => simp [apply_match_iso3, hm, ha] at h
      | ok out2 =>
        simp only [apply_match_iso3, hm, ha, Except.ok.injEq] at h
        subst h
        obtain ⟨ih1, ih2⟩ := ih out2 ha
        constructor
        · simp [ih1]
        · intro p hp
          rcases List.mem_cons.mp hp with rfl | hp2
          · exact hm
          · exact ih2 p hp2

theorem apply_match_preserves_witness :
    ([((⟨PyVal.str "United States", [PyVal.str "42"]⟩ : DataRow), some "USA"),
      ((⟨PyVal.str "Czechia", []⟩ : DataRow), some "CZE")].map Prod.fst =
      [⟨PyVal.str "United States", [PyVal.str "42"]⟩, ⟨PyVal.str "Czechia", []⟩]) ∧
    ∀ p ∈ [((⟨PyVal.str "United States", [PyVal.str "42"]⟩ : DataRow), some "USA"),
      ((⟨PyVal.str "Czechia", []⟩ : DataRow), some "CZE")],
      match_iso3 [⟨PyVal.str "United States of America", PyVal.str "USA", "USA"⟩]
        (fun _ _ => 95) p.1.Area = Except.ok p.2 :=
  apply_match_preserves [⟨PyVal.str "United States of America", PyVal.str "USA", "USA"⟩]
    (fun _ _ => 95)
    [⟨PyVal.str "United States", [PyVal.str "42"]⟩, ⟨PyVal.str "Czechia", []⟩]
    [((⟨PyVal.str "United States", [PyVal.str "42"]⟩ : DataRow), some "USA"),
     ((⟨PyVal.str "Czechia", []⟩ : DataRow), some "CZE")]
    (by rfl)

end MapperEng
